import Mathlib

/-!
Verification development for the conversation/session engine of the
`ai-agent` VS Code extension.  The TypeScript sources are shallowly
embedded: strings are `String`/`List Char`, JavaScript arrays are `List`,
stateful webview providers become explicit state-transition functions,
and thrown `Error`s become `Except` values.  Every definition is
translated from the TypeScript source (file and function named in its
doc comment); definitions marked `Modelled from the spec:` fill in
behaviour of an external library that is not part of the repository.
-/

namespace AIAgent

/-! ## Character-list string primitives

The TypeScript code manipulates JavaScript strings with `trim()`,
`toLowerCase()`, `includes(...)`, `split('\n')` and a regular
expression.  We embed these as executable functions on `List Char`.
-/

/-- JavaScript `String.prototype.trim`: drop leading and trailing
whitespace characters. -/
def trimL (l : List Char) : List Char :=
  ((l.dropWhile Char.isWhitespace).reverse.dropWhile Char.isWhitespace).reverse

/-- JavaScript `String.prototype.toLowerCase` (ASCII fragment). -/
def toLowerL (l : List Char) : List Char :=
  l.map Char.toLower

/-- Split a character list at the first occurrence of `pat`:
returns `some (pre, post)` with the input equal to `pre ++ pat ++ post`
and `pre` shortest possible, or `none` when `pat` does not occur.
This is the search primitive behind the mermaid-fence regular
expression in `chatView.ts`. -/
def splitFirst (pat : List Char) : List Char → Option (List Char × List Char)
  | [] => if pat.isPrefixOf ([] : List Char) then some ([], []) else none
  | c :: rest =>
    if pat.isPrefixOf (c :: rest) then some ([], (c :: rest).drop pat.length)
    else (splitFirst pat rest).map (fun p => (c :: p.1, p.2))

/-- JavaScript `String.prototype.includes`: `pat` occurs contiguously
inside `s`. -/
def occursIn (pat s : List Char) : Bool :=
  decide (pat <:+: s)

/-- JavaScript `split('\n')`: the list of lines of a character list.
`"".split('\n')` is `[""]`, matching JavaScript. -/
def linesL : List Char → List (List Char)
  | [] => [[]]
  | c :: rest =>
    if c = '\n' then [] :: linesL rest
    else
      match linesL rest with
      | [] => [[c]]
      | h :: t => (c :: h) :: t

/-- String-level wrapper for `linesL`. -/
def linesStr (s : String) : List String :=
  (linesL s.data).map String.mk

/-- String-level wrapper for `toLowerL ∘ trimL`. -/
def lowerTrim (s : String) : List Char :=
  toLowerL (trimL s.data)

/-! ### Facts about `splitFirst`, `occursIn` and `linesL` -/

theorem splitFirst_cons_pos {pat : List Char} {c : Char} {rest : List Char}
    (hp : pat.isPrefixOf (c :: rest) = true) :
    splitFirst pat (c :: rest) = some ([], (c :: rest).drop pat.length) := by
  simp [splitFirst, hp]

theorem splitFirst_cons_neg {pat : List Char} {c : Char} {rest : List Char}
    (hp : ¬ pat.isPrefixOf (c :: rest) = true) :
    splitFirst pat (c :: rest) = (splitFirst pat rest).map (fun p => (c :: p.1, p.2)) := by
  simp [splitFirst, hp]

theorem splitFirst_eq_append (pat : List Char) :
    ∀ (s a b : List Char), splitFirst pat s = some (a, b) → s = a ++ pat ++ b := by
  intro s
  induction s with
  | nil =>
    intro a b h
    cases pat with
    | nil => simp_all [splitFirst]
    | cons p ps => simp [splitFirst] at h
  | cons c rest ih =>
    intro a b h
    by_cases hp : pat.isPrefixOf (c :: rest) = true
    · rw [splitFirst_cons_pos hp] at h
      obtain ⟨t, ht⟩ := List.isPrefixOf_iff_prefix.mp hp
      have hdrop : (c :: rest).drop pat.length = t := by
        rw [← ht]; exact List.drop_left pat t
      rw [hdrop] at h
      cases h
      simp [← ht]
    · rw [splitFirst_cons_neg hp] at h
      cases hrec : splitFirst pat rest with
      | none => rw [hrec] at h; cases h
      | some q =>
        rw [hrec] at h
        obtain ⟨a₀, b₀⟩ := q
        simp only [Option.map_some'] at h
        cases h
        have hr := ih _ _ hrec
        simp [hr]

theorem splitFirst_minimal (pat : List Char) :
    ∀ (s a b a' b' : List Char), splitFirst pat s = some (a, b) →
      s = a' ++ pat ++ b' → a.length ≤ a'.length := by
  intro s
  induction s with
  | nil =>
    intro a b a' b' h _
    have hd := splitFirst_eq_append pat [] a b h
    have hlen := congrArg List.length hd
    simp at hlen
    omega
  | cons c rest ih =>
    intro a b a' b' h hdec
    by_cases hp : pat.isPrefixOf (c :: rest) = true
    · rw [splitFirst_cons_pos hp] at h
      cases h
      simp
    · rw [splitFirst_cons_neg hp] at h
      cases hrec : splitFirst pat rest with
      | none => rw [hrec] at h; cases h
      | some q =>
        rw [hrec] at h
        obtain ⟨a₀, b₀⟩ := q
        simp only [Option.map_some'] at h
        cases h
        cases a' with
        | nil =>
          exfalso
          apply hp
          rw [ List.isPrefixOf_iff_prefix]
          exact ⟨b', by simpa using hdec.symm⟩
        | cons d a₁ =>
          simp only [List.cons_append, List.cons.injEq] at hdec
          have := ih _ _ a₁ b' hrec hdec.2
          simpa using this

theorem splitFirst_of_first_occurrence (pat : List Char) :
    ∀ (a b : List Char),
      (∀ a' b', a ++ pat ++ b = a' ++ pat ++ b' → a.length ≤ a'.length) →
      splitFirst pat (a ++ pat ++ b) = some (a, b) := by
  intro a
  induction a with
  | nil =>
    intro b _
    simp only [List.nil_append]
    cases hs : pat ++ b with
    | nil =>
      obtain ⟨hp, hb⟩ := List.append_eq_nil.mp hs
      subst hp; subst hb
      simp [splitFirst]
    | cons c rest =>
      have hp : pat.isPrefixOf (c :: rest) = true := by
        rw [ List.isPrefixOf_iff_prefix]
        exact ⟨b, hs⟩
      rw [splitFirst_cons_pos hp, ← hs, List.drop_left pat b]
  | cons c a₁ ih =>
    intro b hmin
    have hnp : ¬ pat.isPrefixOf ((c :: a₁) ++ pat ++ b) = true := by
      intro hp
      rw [ List.isPrefixOf_iff_prefix] at hp
      obtain ⟨t, ht⟩ := hp
      have := hmin [] t (by simpa using ht.symm)
      simp at this
    have hstep : (c :: a₁) ++ pat ++ b = c :: (a₁ ++ pat ++ b) := by simp
    rw [hstep] at hnp ⊢
    rw [splitFirst_cons_neg hnp]
    have hrec : splitFirst pat (a₁ ++ pat ++ b) = some (a₁, b) := by
      apply ih b
      intro a' b' hd
      have := hmin (c :: a') b' (by simp [hd])
      simpa using this
    rw [hrec]
    rfl

theorem occursIn_iff (pat s : List Char) :
    occursIn pat s = true ↔ ∃ a b, s = a ++ pat ++ b := by
  unfold occursIn
  rw [decide_eq_true_iff]
  constructor
  · rintro ⟨a, b, h⟩; exact ⟨a, b, h.symm⟩
  · rintro ⟨a, b, h⟩; exact ⟨a, b, h.symm⟩

theorem splitFirst_eq_none_of_not_occurs {pat s : List Char}
    (h : occursIn pat s = false) : splitFirst pat s = none := by
  cases hs : splitFirst pat s with
  | none => rfl
  | some q =>
    exfalso
    have hdec := splitFirst_eq_append pat s q.1 q.2 (by rw [hs])
    have : occursIn pat s = true := (occursIn_iff pat s).mpr ⟨q.1, q.2, hdec⟩
    rw [h] at this
    cases this

theorem linesL_ne_nil (l : List Char) : linesL l ≠ [] := by
  induction l with
  | nil => simp [linesL]
  | cons c rest ih =>
    simp only [linesL]
    split
    · simp
    · cases h : linesL rest with
      | nil => exact absurd h ih
      | cons a t => simp

theorem linesStr_ne_nil (s : String) : linesStr s ≠ [] := by
  unfold linesStr
  simp [linesL_ne_nil]

/-! ## DiffEngine

`src/extension.ts`, `generateDiffHtml` (lines 388-409): a positional
line-by-line diff.  The loop body emits, per index `i` below
`max(currentLines.length, generatedLines.length)`, one or two `<pre>`
blocks; we split the embedding into the emitted line sequence
(`generateDiffLines`) and the HTML rendering on top of it
(`generateDiffHtml`).  JavaScript `currentLines[i] || ''` yields `''`
both when the index is out of range and when the stored line is the
empty string, which is why the branches below test for the empty
string rather than for index validity.
-/

inductive DiffKind where
  | added
  | removed
  | unchanged
deriving DecidableEq, Repr

structure DiffLine where
  kind : DiffKind
  text : String
deriving DecidableEq, Repr

/-- One iteration of the `generateDiffHtml` loop: the body's
`if`/`else if` chain over `currentLine` and `generatedLine`. -/
def diffEmit (currentLine generatedLine : String) : List DiffLine :=
  if currentLine = generatedLine then [⟨.unchanged, currentLine⟩]
  else if currentLine = "" then [⟨.added, generatedLine⟩]
  else if generatedLine = "" then [⟨.removed, currentLine⟩]
  else [⟨.removed, currentLine⟩, ⟨.added, generatedLine⟩]

/-- The `for (let i = 0; i < maxLines; i++)` loop of `generateDiffHtml`,
running `n` more iterations starting at index `i`. -/
def posRange (currentLines generatedLines : List String) (i : Nat) : Nat → List DiffLine
  | 0 => []
  | n + 1 =>
    diffEmit (currentLines.getD i "") (generatedLines.getD i "")
      ++ posRange currentLines generatedLines (i + 1) n

/-- The emitted diff-line sequence of `generateDiffHtml` on two line
lists. -/
def positionalDiff (currentLines generatedLines : List String) : List DiffLine :=
  posRange currentLines generatedLines 0 (max currentLines.length generatedLines.length)

/-- `src/extension.ts` `generateDiffHtml`, restricted to the sequence of
diff lines it renders: split both texts on newlines and run the
positional loop. -/
def generateDiffLines (currentContent generatedCode : String) : List DiffLine :=
  positionalDiff (linesStr currentContent) (linesStr generatedCode)

/-- `src/extension.ts` `escapeHtml` (lines 430-437): entity-escape the
five special characters. -/
def escapeHtml (text : String) : String :=
  String.mk (text.data.flatMap fun c =>
    if c = '&' then "&amp;".data
    else if c = '<' then "&lt;".data
    else if c = '>' then "&gt;".data
    else if c = '"' then "&quot;".data
    else if c = '\'' then "&#039;".data
    else [c])

/-- HTML rendering of one emitted diff line, as concatenated by
`generateDiffHtml`. -/
def renderDiffLine (l : DiffLine) : String :=
  match l.kind with
  | .unchanged => "<pre class=\"unchanged\">" ++ escapeHtml l.text ++ "</pre>"
  | .added => "<pre class=\"added\">+ " ++ escapeHtml l.text ++ "</pre>"
  | .removed => "<pre class=\"removed\">- " ++ escapeHtml l.text ++ "</pre>"

/-- `src/extension.ts` `generateDiffHtml`: the accumulated `diffHtml`
string. -/
def generateDiffHtml (currentContent generatedCode : String) : String :=
  (generateDiffLines currentContent generatedCode).foldl
    (fun acc l => acc ++ renderDiffLine l) ""

/-- Tail of the positional walk once the original's lines are
exhausted: every remaining proposed-side position is compared against
the empty line. -/
def walkNilLeft (gs : List String) : List DiffLine :=
  gs.foldr (fun g acc => diffEmit "" g ++ acc) []

/-- The walk described by the spec's §4.4 contract (as amended):
consume both line sequences position by position, treating a missing
position as the empty line, until both are exhausted. -/
def positionalWalk : List String → List String → List DiffLine
  | [], gs => walkNilLeft gs
  | c :: cs, [] => diffEmit c "" ++ positionalWalk cs []
  | c :: cs, g :: gs => diffEmit c g ++ positionalWalk cs gs

/-- The diff the claim's literal wording describes: a `removed` line is
emitted whenever the position exists in the original (and similarly for
`added`), regardless of whether the stored line is empty. -/
def claimPositionalDiff (currentLines generatedLines : List String) : List DiffLine :=
  (List.range (max currentLines.length generatedLines.length)).map (fun i =>
    match currentLines.get? i, generatedLines.get? i with
    | some c, some g => if c = g then [⟨.unchanged, c⟩] else [⟨.removed, c⟩, ⟨.added, g⟩]
    | some c, none => [⟨.removed, c⟩]
    | none, some g => [⟨.added, g⟩]
    | none, none => []) |>.flatten

/-! ### The positional loop computes the positional walk -/

theorem posRange_shift (currentLines generatedLines : List String) :
    ∀ (n i : Nat), posRange currentLines generatedLines (i + 1) n
      = posRange currentLines.tail generatedLines.tail i n := by
  intro n
  induction n with
  | zero => intro i; rfl
  | succ m ih =>
    intro i
    simp only [posRange]
    rw [ih]
    congr 1
    · congr 1
      · cases currentLines <;> simp [List.getD]
      · cases generatedLines <;> simp [List.getD]

theorem positionalDiff_nil_nil : positionalDiff [] [] = [] := by
  unfold positionalDiff
  have h : max ([] : List String).length ([] : List String).length = 0 := by simp
  rw [h]
  rfl

theorem positionalDiff_nil_cons (g : String) (gs : List String) :
    positionalDiff [] (g :: gs) = diffEmit "" g ++ positionalDiff [] gs := by
  unfold positionalDiff
  have h1 : max ([] : List String).length (g :: gs).length = gs.length + 1 := by simp
  have h2 : max ([] : List String).length gs.length = gs.length := by simp
  rw [h1, h2]
  simp only [posRange]
  rw [posRange_shift]
  rfl

theorem positionalDiff_cons_nil (c : String) (cs : List String) :
    positionalDiff (c :: cs) [] = diffEmit c "" ++ positionalDiff cs [] := by
  unfold positionalDiff
  have h1 : max (c :: cs).length ([] : List String).length = cs.length + 1 := by simp
  have h2 : max cs.length ([] : List String).length = cs.length := by simp
  rw [h1, h2]
  simp only [posRange]
  rw [posRange_shift]
  rfl

theorem positionalDiff_cons_cons (c g : String) (cs gs : List String) :
    positionalDiff (c :: cs) (g :: gs) = diffEmit c g ++ positionalDiff cs gs := by
  unfold positionalDiff
  have h1 : max (c :: cs).length (g :: gs).length = max cs.length gs.length + 1 := by
    simp [Nat.succ_max_succ]
  rw [h1]
  simp only [posRange]
  rw [posRange_shift]
  rfl

theorem positionalDiff_eq_positionalWalk :
    ∀ (cs gs : List String), positionalDiff cs gs = positionalWalk cs gs := by
  intro cs
  induction cs with
  | nil =>
    intro gs
    induction gs with
    | nil => rw [positionalDiff_nil_nil]; rfl
    | cons g gs' ihg =>
      rw [positionalDiff_nil_cons, ihg]
      rfl
  | cons c cs' ih =>
    intro gs
    cases gs with
    | nil =>
      rw [positionalDiff_cons_nil, ih []]
      rfl
    | cons g gs' =>
      rw [positionalDiff_cons_cons, ih gs']
      rfl

theorem positionalWalk_nil_left (gs : List String) (h : ∀ g ∈ gs, g ≠ "") :
    positionalWalk [] gs = gs.map (fun g => ⟨.added, g⟩) := by
  show walkNilLeft gs = _
  induction gs with
  | nil => rfl
  | cons g gs' ih =>
    have hg : g ≠ "" := h g (List.mem_cons_self g gs')
    show diffEmit "" g ++ walkNilLeft gs' = _
    rw [ih (fun x hx => h x (List.mem_cons_of_mem g hx))]
    simp only [diffEmit]
    rw [if_neg (fun hgg : "" = g => hg hgg.symm)]
    rfl

/-! ## The alignment-aware diff of `utils.ts`

`utils.ts` (`generateDiffHtml` there) calls `diff.diffLines` from the
general-purpose `diff` npm package, whose source is not part of this
repository.  Per the spec it is "a true alignment-aware line diff (via
a general-purpose diff library)".
-/

/-- Number of non-`unchanged` lines in a diff: the edit cost used to
pick the better alignment. -/
def editCount (d : List DiffLine) : Nat :=
  d.countP (fun l => decide (l.kind ≠ DiffKind.unchanged))

/-- Modelled from the spec: the `diff` library's `diffLines` (used by
`utils.ts` `generateDiffHtml`), i.e. a minimal-edit-script,
alignment-aware line diff.  Missing from `src/`; modelled as the
standard LCS diff: equal heads are matched, otherwise the cheaper of
remove-first / add-first is taken.  Runs on explicit fuel so that it is
structurally recursive. -/
def lcsDiffFuel : Nat → List String → List String → List DiffLine
  | 0, as, bs => as.map (fun a => ⟨.removed, a⟩) ++ bs.map (fun b => ⟨.added, b⟩)
  | _ + 1, [], bs => bs.map (fun b => ⟨.added, b⟩)
  | _ + 1, a :: as, [] => (a :: as).map (fun a' => ⟨.removed, a'⟩)
  | f + 1, a :: as, b :: bs =>
    if a = b then ⟨.unchanged, a⟩ :: lcsDiffFuel f as bs
    else
      let d1 := ⟨.removed, a⟩ :: lcsDiffFuel f as (b :: bs)
      let d2 := ⟨.added, b⟩ :: lcsDiffFuel f (a :: as) bs
      if editCount d1 ≤ editCount d2 then d1 else d2

/-- Modelled from the spec: the diff-line sequence of the `utils.ts`
code path (library-based, alignment-aware). -/
def utilsDiffLines (oldCode newCode : String) : List DiffLine :=
  lcsDiffFuel (((linesStr oldCode).length + (linesStr newCode).length))
    (linesStr oldCode) (linesStr newCode)

/-! ## ContentClassifier

`src/chatView.ts`: `isMermaidDiagram` (lines 107-115) and the fence
extraction in `showMermaidDiagram` (lines 117-139).
-/

/-- `src/chatView.ts` `isMermaidDiagram`: lower-case the trimmed
content and test the six `includes` calls. -/
def isMermaidDiagram (content : String) : Bool :=
  occursIn "sequencediagram".data (lowerTrim content) ||
  occursIn "graph".data (lowerTrim content) ||
  occursIn "classdiagram".data (lowerTrim content) ||
  occursIn "statediagram".data (lowerTrim content) ||
  occursIn "erdiagram".data (lowerTrim content) ||
  occursIn "```mermaid".data (lowerTrim content)

/-- The six substrings whose presence `isMermaidDiagram` tests. -/
def mermaidMarkers : List String :=
  ["sequencediagram", "graph", "classdiagram", "statediagram", "erdiagram", "```mermaid"]

/-- The claim's literal diagram condition: contains one of the five
keywords, or is wrapped in a mermaid-tagged fence. -/
def claimDiagramCond (content : String) : Bool :=
  (["sequencediagram", "graph", "classdiagram", "statediagram", "erdiagram"].any
    fun k => occursIn k.data (lowerTrim content)) ||
  ("```mermaid".data.isPrefixOf (lowerTrim content) &&
   "```".data.reverse.isPrefixOf (lowerTrim content).reverse)

/-- `src/chatView.ts` `showMermaidDiagram`, fence-extraction part: the
regular expression `/(three backticks)mermaid\s*([\s\S]*?)\s*(three
backticks)/` applied to the trimmed content, guarded by
`if (match && match[1])`: the trimmed capture group is used only when
it is nonempty (the group is the payload between the first mermaid tag
and the next closing fence, already stripped of surrounding whitespace
by the `\s*` anchors, so it is falsy exactly when that payload is
whitespace-only); in every other case — no mermaid fence, no closing
fence after it, or an empty/whitespace-only payload — the whole
trimmed content is kept. -/
def extractMermaid (diagramContent : String) : String :=
  match splitFirst "```mermaid".data (trimL diagramContent.data) with
  | none => String.mk (trimL diagramContent.data)
  | some p =>
    match splitFirst "```".data p.2 with
    | none => String.mk (trimL diagramContent.data)
    | some q =>
      if trimL q.1 = [] then String.mk (trimL diagramContent.data)
      else String.mk (trimL q.1)

/-- The claim's literal fence extraction: first fence opener with an
arbitrary language tag (rest of the opener's line), next closer,
payload trimmed; entire input unchanged when no fence pair exists. -/
def claimFenceExtract (s : String) : String :=
  match splitFirst "```".data s.data with
  | none => s
  | some p =>
    let afterTag := p.2.dropWhile (fun c => c ≠ '\n')
    match splitFirst "```".data afterTag with
    | none => s
    | some q => String.mk (trimL q.1)

/-! ## ConversationStore of `src/extension.ts`

`ChatViewProvider.resolveWebviewView` (lines 161-187): the `send`
handler pushes the user message, and on a successful provider reply
pushes the assistant message, trims with
`if (messages.length > 10) messages = messages.slice(-10)`, and
persists; on a thrown error nothing further happens.  The `clear`
handler resets the history.
-/

/-- The `ChatMessage` interface of `src/extension.ts`. -/
structure ExtMessage where
  role : String
  content : String
deriving DecidableEq, Repr

/-- The hard-coded history cap of `src/extension.ts` (the literal `10`
in `messages.slice(-10)`). -/
def historyCap : Nat := 10

/-- `if (messages.length > 10) messages = messages.slice(-10)`:
keep the last `historyCap` messages when over the cap.
JavaScript `slice(-10)` keeps the final ten elements. -/
def trimMessages (messages : List ExtMessage) : List ExtMessage :=
  if messages.length > historyCap then messages.drop (messages.length - historyCap)
  else messages

/-- One inbound event of the `send`/`clear` webview handler: a send
whose provider call succeeded with `response`, a send whose provider
call threw, or a clear. -/
inductive ExtChatEvent where
  | sendSuccess (userText response : String)
  | sendFailure (userText : String)
  | clear
deriving DecidableEq, Repr

/-- The messages appended to the history by one event. -/
def extAppends : ExtChatEvent → List ExtMessage
  | .sendSuccess u r => [⟨"user", u⟩, ⟨"assistant", r⟩]
  | .sendFailure u => [⟨"user", u⟩]
  | .clear => []

/-- State transition of the `src/extension.ts` chat history under one
event: pushes per `extAppends`, trims only after a successful send,
resets on clear. -/
def extStep (messages : List ExtMessage) : ExtChatEvent → List ExtMessage
  | .sendSuccess u r => trimMessages (messages ++ extAppends (.sendSuccess u r))
  | .sendFailure u => messages ++ extAppends (.sendFailure u)
  | .clear => []

/-- The history after a sequence of events, starting from an empty
conversation. -/
def extRun (events : List ExtChatEvent) : List ExtMessage :=
  events.foldl extStep []

/-- The full append order over a sequence of events. -/
def extAppendOrder : List ExtChatEvent → List ExtMessage
  | [] => []
  | e :: tl => extAppends e ++ extAppendOrder tl

theorem trimMessages_suffix (l : List ExtMessage) : trimMessages l <:+ l := by
  unfold trimMessages
  split
  · exact List.drop_suffix _ _
  · exact List.suffix_refl l

theorem trimMessages_length_le (l : List ExtMessage) :
    (trimMessages l).length ≤ historyCap := by
  unfold trimMessages
  split
  · rename_i h
    rw [List.length_drop]
    omega
  · rename_i h
    omega

theorem suffix_append_right {α : Type} {l₁ l₂ : List α} (l₃ : List α)
    (h : l₁ <:+ l₂) : l₁ ++ l₃ <:+ l₂ ++ l₃ := by
  obtain ⟨t, ht⟩ := h
  exact ⟨t, by rw [← List.append_assoc, ht]⟩

theorem extStep_suffix {h : List ExtMessage} {A : List ExtMessage}
    (hs : h <:+ A) (e : ExtChatEvent) : extStep h e <:+ A ++ extAppends e := by
  cases e with
  | sendSuccess u r =>
    exact List.IsSuffix.trans (trimMessages_suffix _) (suffix_append_right _ hs)
  | sendFailure u =>
    exact suffix_append_right _ hs
  | clear =>
    exact ⟨A ++ extAppends .clear, by simp [extStep, extAppends]⟩

theorem extRun_suffix_aux :
    ∀ (events : List ExtChatEvent) (h A : List ExtMessage), h <:+ A →
      events.foldl extStep h <:+ A ++ extAppendOrder events := by
  intro events
  induction events with
  | nil =>
    intro h A hs
    simpa [extAppendOrder] using hs
  | cons e tl ih =>
    intro h A hs
    show (e :: tl).foldl extStep h <:+ _
    rw [List.foldl_cons]
    have step := extStep_suffix hs e
    have := ih (extStep h e) (A ++ extAppends e) step
    simpa [extAppendOrder, List.append_assoc] using this

/-! ## ProviderClient

`src/llmClient.ts` `getLLMClient` (lines 14-32),
`src/clients/openAIClient.ts` (`OpenAIClient` constructor, `chat`,
`validateMessages`, `validateRole`), and the `OllamaClient` constructor.
Thrown `Error`s become `Except.error` values tagged with the spec's §7
error taxonomy; the error strings are the ones thrown by the code.  A
successful `chat` returns the completion request it would post, so an
`Except.error` result means no network call is made.
-/

/-- A `{role, content}` message as sent to a provider. -/
structure SimpleMsg where
  role : String
  content : String
deriving DecidableEq, Repr

/-- The spec's §7 error taxonomy, carrying the thrown message text. -/
inductive LLMError where
  | validation (msg : String)
  | configuration (msg : String)
  | provider (msg : String)
  | content (msg : String)
deriving DecidableEq, Repr

/-- The chat-completions request body an `OpenAIClient.chat` call
posts. -/
structure ChatRequest where
  model : String
  messages : List SimpleMsg
  temperatureTenths : Nat
  maxTokens : Nat
deriving DecidableEq, Repr

/-- `OpenAIClient.validateRole`: accept exactly `system`, `user`,
`assistant`; otherwise throw. -/
def validateRole (role : String) : Except LLMError String :=
  if role = "system" || role = "user" || role = "assistant" then .ok role
  else .error (.validation ("Invalid role: " ++ role))

/-- `OpenAIClient.validateMessages`: validate every role and trim every
content. -/
def validateMessages (messages : List SimpleMsg) : Except LLMError (List SimpleMsg) :=
  messages.mapM fun m => do
    let r ← validateRole m.role
    pure ⟨r, String.mk (trimL m.content.data)⟩

/-- `OpenAIClient.chat` (lines 25-45 of
`src/clients/openAIClient.ts`): reject an empty message list before
anything else, validate, then build the network request
(`model: 'gpt-4o'`, `temperature: 0.7`, `max_tokens: 2000`). -/
def openAIChat (messages : List SimpleMsg) : Except LLMError ChatRequest :=
  if messages.length = 0 then .error (.validation "No messages provided for chat")
  else do
    let v ← validateMessages messages
    pure { model := "gpt-4o", messages := v, temperatureTenths := 7, maxTokens := 2000 }

/-- A constructed concrete provider client. -/
inductive LLMClientInst where
  | openAI (apiKey : String)
  | ollama (apiKey : String)
deriving DecidableEq, Repr

/-- The `OpenAIClient` constructor:
`if (!apiKey?.trim()) throw new Error('OpenAI API key not configured')`,
then keep the trimmed key. -/
def openAIClientMake (apiKey : String) : Except LLMError LLMClientInst :=
  if trimL apiKey.data = [] then .error (.configuration "OpenAI API key not configured")
  else .ok (.openAI (String.mk (trimL apiKey.data)))

/-- The `OllamaClient` constructor:
`if (!apiKey) throw new Error('Ollama API key not configured')`. -/
def ollamaClientMake (apiKey : String) : Except LLMError LLMClientInst :=
  if apiKey = "" then .error (.configuration "Ollama API key not configured")
  else .ok (.ollama apiKey)

/-- The configuration record consumed by `getLLMClient` (the fields of
`AIConfig` it reads). -/
structure AIConfig where
  selectedProvider : String
  maxContextLines : Nat
  enableInline : Bool
  apiKeys : List (String × String)
deriving DecidableEq, Repr

/-- The credential `getLLMClient` reads:
`config.apiKeys[provider.toLowerCase()]`, with a missing entry read as
the empty string (both are falsy in the JavaScript test). -/
def configcredential (cfg : AIConfig) : String :=
  (cfg.apiKeys.lookup (String.mk (toLowerL cfg.selectedProvider.data))).getD ""

/-- `src/llmClient.ts` `getLLMClient`: fail on a falsy credential
before anything else, then dispatch on the provider name. -/
def getLLMClient (cfg : AIConfig) : Except LLMError LLMClientInst :=
  let apiKey := configcredential cfg
  if apiKey = "" then
    .error (.configuration
      (cfg.selectedProvider ++ " API key not configured. Please set it in settings."))
  else
    if cfg.selectedProvider = "OpenAI" then openAIClientMake apiKey
    else if cfg.selectedProvider = "Ollama" then ollamaClientMake apiKey
    else .error (.configuration ("Unsupported provider: " ++ cfg.selectedProvider))

/-! ## ConversationStore of `src/chatView.ts`

`ChatViewProvider.sendMessage` (lines 54-105) together with
`showMermaidDiagram` and the `clear` handler, as a transition system.
JavaScript runs the handler atomically up to the `await` on the
network call, so a `send` is split into the synchronous start (guard,
push of the user message, issuing the request) and the resumption when
the provider promise resolves or rejects.  The suspended continuation
is the `pending` field; `_isProcessing` is the guard flag.
-/

/-- The `ChatMessage` interface of `src/chatView.ts`. -/
structure ChatVMessage where
  role : String
  content : String
  timestamp : Nat
  codeContext : Option String
deriving DecidableEq, Repr

/-- What the suspended `sendMessage` continuation remembers: the text
the user sent (it decides the diagram-request branch on resumption). -/
structure PendingReq where
  content : String
deriving DecidableEq, Repr

/-- In-memory and persisted state of one `ChatViewProvider`. -/
structure StoreState where
  messages : List ChatVMessage
  persisted : List ChatVMessage
  isProcessing : Bool
  pending : List PendingReq
deriving DecidableEq, Repr

/-- Inbound events: a `send` command (carrying the environment inputs
read synchronously: code context, active-document language, clock), the
resolution of the in-flight provider call, and the `clear` command. -/
inductive StoreEvent where
  | send (content ctx lang : String) (now : Nat)
  | resolve (result : Except LLMError String) (now : Nat)
  | clear
deriving Repr

/-- Boundary effects emitted by a transition. -/
inductive StoreEffect where
  | warnStillProcessing
  | networkRequest (messages : List SimpleMsg)
  | showError (e : LLMError)
  | persistWrite (messages : List ChatVMessage)
deriving DecidableEq, Repr

/-- `ChatViewProvider.getSystemMessage`: the synthesized leading system
message for the active document's language. -/
def getSystemMessage (lang : String) (now : Nat) : ChatVMessage :=
  ⟨"system",
    "You are an expert " ++ lang ++ " developer. Provide detailed explanations with code examples in "
      ++ lang ++ ". Format responses using markdown for text and triple backticks for code.",
    now, none⟩

/-- Projection to the `{role, content}` shape sent over the wire. -/
def toSimple (m : ChatVMessage) : SimpleMsg :=
  ⟨m.role, m.content⟩

/-- The suffix appended to the user's text in the diagram-request
branch of `sendMessage`. -/
def mermaidSuffix : String :=
  "\n\nPlease provide the response as a Mermaid diagram with proper line breaks."

/-- Transition function of the `src/chatView.ts` store.  `send` is the
synchronous prefix of `sendMessage` (guard, user-message push, network
request); `resolve` is the continuation after the `await` (assistant
push with mermaid extraction and persistence on success, error
notification on failure, `finally` clearing the flag); `clear` is the
clear handler. -/
def stepStore (s : StoreState) : StoreEvent → StoreState × List StoreEffect
  | .send content ctx lang now =>
    if s.isProcessing then (s, [.warnStillProcessing])
    else
      let userMsg : ChatVMessage := ⟨"user", content, now, some ctx⟩
      let msgs := s.messages ++ [userMsg]
      let netMsgs :=
        if occursIn "diagram".data (toLowerL content.data) then
          [toSimple (getSystemMessage lang now), ⟨"user", content ++ mermaidSuffix⟩]
        else
          toSimple (getSystemMessage lang now) :: msgs.map toSimple
      (⟨msgs, s.persisted, true, s.pending ++ [⟨content⟩]⟩, [.networkRequest netMsgs])
  | .resolve result now =>
    match s.pending with
    | [] => (s, [])
    | p :: rest =>
      match result with
      | .error e => (⟨s.messages, s.persisted, false, rest⟩, [.showError e])
      | .ok response =>
        if occursIn "diagram".data (toLowerL p.content.data) || isMermaidDiagram response then
          let asst : ChatVMessage := ⟨"assistant", extractMermaid response, now, none⟩
          let msgs := s.messages ++ [asst]
          (⟨msgs, msgs, false, rest⟩, [.persistWrite msgs, .persistWrite msgs])
        else
          let asst : ChatVMessage := ⟨"assistant", response, now, none⟩
          let msgs := s.messages ++ [asst]
          (⟨msgs, msgs, false, rest⟩, [.persistWrite msgs])
  | .clear => (⟨[], [], s.isProcessing, s.pending⟩, [.persistWrite []])

/-- States reachable from a freshly constructed provider (restored
history `h`, idle, nothing in flight). -/
inductive Reachable : StoreState → Prop where
  | init (h : List ChatVMessage) : Reachable ⟨h, h, false, []⟩
  | step (s : StoreState) (e : StoreEvent) : Reachable s → Reachable (stepStore s e).1

/-- The guard flag is exactly the in-flight request count: the
`_isProcessing` discipline of `sendMessage`. -/
theorem reachable_pending_inv (s : StoreState) (hr : Reachable s) :
    s.pending.length = (if s.isProcessing then 1 else 0) := by
  induction hr with
  | init h => rfl
  | step s e _ ih =>
    cases e with
    | send content ctx lang now =>
      by_cases hp : s.isProcessing
      · simp [stepStore, hp]
        simpa [hp] using ih
      · have hlen : s.pending.length = 0 := by simpa [hp] using ih
        have hnil : s.pending = [] := List.length_eq_zero.mp hlen
        simp [stepStore, hp, hnil]
    | resolve result now =>
      cases hpend : s.pending with
      | nil =>
        simp [stepStore, hpend]
        rw [hpend] at ih
        simpa using ih
      | cons p rest =>
        have hrest : rest = [] := by
          rw [hpend] at ih
          by_cases hp : s.isProcessing
          · simpa [hp] using ih
          · simp [hp] at ih
        cases result with
        | error e => simp [stepStore, hpend, hrest]
        | ok response =>
          by_cases hd : occursIn "diagram".data (toLowerL p.content.data) || isMermaidDiagram response
          · simp [stepStore, hpend, hrest, hd]
          · simp [stepStore, hpend, hrest, hd]
    | clear =>
      simpa [stepStore] using ih

/-! ## ReviewSession

`src/extension.ts` `showCodeReviewWebview` (lines 286-383) and
`applyCodeChanges` (lines 414-425).  The panel's message handler maps
`accept` to `applyCodeChanges(generatedCode)` followed by
`panel.dispose()`, and `discard` to `panel.dispose()` alone; a
disposed panel delivers no further messages.  The candidate's status is
`pending` while the panel is open, `applied` after accept and
`discarded` after discard; the disposed panel is the terminal state.
-/

inductive ReviewStatus where
  | pending
  | accepted
  | applied
  | discarded
deriving DecidableEq, Repr

/-- The ReviewCandidate of the spec's data model, as created by
`showCodeReviewWebview`: current editor text, generated code, and the
precomputed positional diff. -/
structure ReviewCandidate where
  originalText : String
  proposedText : String
  diff : List DiffLine
  status : ReviewStatus
deriving DecidableEq, Repr

/-- Candidate creation in `showCodeReviewWebview`: `currentContent` is
the editor text, or `''` with no active editor; the diff is
precomputed by `generateDiffHtml`. -/
def mkReviewCandidate (editorContent : Option String) (generatedCode : String) :
    ReviewCandidate :=
  let current := editorContent.getD ""
  ⟨current, generatedCode, generateDiffLines current generatedCode, .pending⟩

inductive ReviewMsg where
  | accept
  | discard
deriving DecidableEq, Repr

/-- Effects at the document-mutation boundary. -/
inductive DocEffect where
  | applyEdit (text : String)
  | noEditorError
deriving DecidableEq, Repr

/-- `src/extension.ts` `applyCodeChanges`: one atomic replace of the
selection (or whole document) with the generated code when an editor is
active, an error notification otherwise. -/
def applyCodeChanges (editorPresent : Bool) (code : String) : List DocEffect :=
  if editorPresent then [.applyEdit code] else [.noEditorError]

/-- The webview message handler of `showCodeReviewWebview`: `none`
models a disposed panel, which receives no further messages. -/
def reviewStep (editorPresent : Bool) (c : ReviewCandidate) :
    ReviewMsg → Option (ReviewCandidate × List DocEffect) :=
  match c.status with
  | .pending => fun m =>
    match m with
    | .accept => some ({ c with status := .applied }, applyCodeChanges editorPresent c.proposedText)
    | .discard => some ({ c with status := .discarded }, [])
  | _ => fun _ => none

/-! ## Claim theorems -/

/-- C1: for every sequence of events of the `src/extension.ts` chat
handler, the stored history is a suffix of the full append order
(trimming removes only from the oldest end, never reorders), and
immediately after any trim — a trim runs exactly after each successful
send — the history length is at most the cap of 10. -/
theorem conversation_trim_cap_and_suffix :
    ∀ (events : List ExtChatEvent),
      extRun events <:+ extAppendOrder events ∧
      ∀ (u r : String),
        (extRun (events ++ [ExtChatEvent.sendSuccess u r])).length ≤ historyCap := by
  intro events
  constructor
  · have h := extRun_suffix_aux events [] [] List.nil_suffix
    simpa [extRun] using h
  · intro u r
    unfold extRun
    rw [List.foldl_append]
    simp only [List.foldl_cons, List.foldl_nil]
    exact trimMessages_length_le _

/-- C2 counterexample: the claim emits a `removed` line whenever the
position exists in the original, but the code tests the line for
emptiness, not the position for existence.  On original `"a\n\nb"`
(whose middle line exists and is empty) versus proposed `"a\nX\nb"`,
the code emits no `removed` line at position 1 while the claim's
positional pairing does. -/
theorem generateDiffLines_position_exists_cx :
    generateDiffLines "a\n\nb" "a\nX\nb"
      ≠ claimPositionalDiff (linesStr "a\n\nb") (linesStr "a\nX\nb") := by
  decide

/-- C2 (amended): the diff walks the two line sequences positionally,
treating a missing position as the empty line, until both are
exhausted; at each position, equal lines yield one `unchanged` line,
and otherwise a `removed` line is emitted exactly when the original's
line there is nonempty, followed by an `added` line exactly when the
proposed line there is nonempty (see `diffEmit`/`positionalWalk`). -/
theorem generateDiffLines_positional_walk (currentContent generatedCode : String) :
    generateDiffLines currentContent generatedCode
      = positionalWalk (linesStr currentContent) (linesStr generatedCode) :=
  positionalDiff_eq_positionalWalk (linesStr currentContent) (linesStr generatedCode)

/-- C3 counterexample: diffing the empty original against
`"a\n\nb"` does not yield only `added` lines: at position 1 both sides
are the empty line, so the code emits an `unchanged` line. -/
theorem generateDiffLines_empty_original_cx :
    generateDiffLines "" "a\n\nb"
      ≠ (linesStr "a\n\nb").map (fun l => ⟨DiffKind.added, l⟩) := by
  decide

/-- C3 (amended): for every text whose lines are all nonempty, diffing
the empty original against it yields exactly one `added` line per line
of the text, in order. -/
theorem generateDiffLines_empty_original (x : String)
    (h : ∀ l ∈ linesStr x, l ≠ "") :
    generateDiffLines "" x = (linesStr x).map (fun l => ⟨DiffKind.added, l⟩) ∧
    (generateDiffLines "" x).length = (linesStr x).length := by
  have hmain : generateDiffLines "" x
      = (linesStr x).map (fun l => (⟨DiffKind.added, l⟩ : DiffLine)) := by
    show positionalDiff (linesStr "") (linesStr x) = _
    have h0 : linesStr "" = [""] := rfl
    rw [positionalDiff_eq_positionalWalk, h0]
    cases hx : linesStr x with
    | nil => exact absurd hx (linesStr_ne_nil x)
    | cons g gs =>
      have hmem : ∀ l ∈ g :: gs, l ≠ "" := by rw [← hx]; exact h
      have hg : g ≠ "" := hmem g (List.mem_cons_self g gs)
      show diffEmit "" g ++ positionalWalk [] gs = _
      rw [positionalWalk_nil_left gs (fun l hl => hmem l (List.mem_cons_of_mem g hl))]
      simp only [diffEmit, List.map_cons]
      rw [if_neg (fun hgg : "" = g => hg hgg.symm)]
      rfl
  exact ⟨hmain, by rw [hmain, List.length_map]⟩

/-- C3 witness: the amended claim at `x = "a\nb"`. -/
theorem generateDiffLines_empty_original_witness :
    (∀ l ∈ linesStr "a\nb", l ≠ "") ∧
    generateDiffLines "" "a\nb" = (linesStr "a\nb").map (fun l => ⟨DiffKind.added, l⟩) := by
  have h : ∀ l ∈ linesStr "a\nb", l ≠ "" := by decide
  exact ⟨h, (generateDiffLines_empty_original "a\nb" h).1⟩

/-- C4: while a request is in flight (`_isProcessing` set), a second
`send` on the same store is rejected immediately with the
still-processing warning — the state, and in particular the message
history, is unchanged and no network request is issued — and in every
reachable state at most one request is in flight. -/
theorem store_single_in_flight :
    (∀ (s : StoreState) (content ctx lang : String) (now : Nat),
        s.isProcessing = true →
        stepStore s (.send content ctx lang now) = (s, [.warnStillProcessing])) ∧
    (∀ s : StoreState, Reachable s → s.pending.length ≤ 1) := by
  constructor
  · intro s content ctx lang now hp
    simp [stepStore, hp]
  · intro s hr
    rw [reachable_pending_inv s hr]
    split <;> omega

/-- C4 witness: in the reachable state after one `send` from the empty
store, a second `send` is rejected with the warning and the state is
unchanged. -/
theorem store_single_in_flight_witness :
    stepStore ⟨[⟨"user", "hi", 0, some ""⟩], [], true, [⟨"hi"⟩]⟩ (.send "again" "" "ts" 1)
        = (⟨[⟨"user", "hi", 0, some ""⟩], [], true, [⟨"hi"⟩]⟩, [.warnStillProcessing]) ∧
    (⟨[⟨"user", "hi", 0, some ""⟩], [], true, [⟨"hi"⟩]⟩ : StoreState).pending.length ≤ 1 := by
  constructor
  · exact store_single_in_flight.1 _ "again" "" "ts" 1 rfl
  · have h0 : Reachable ⟨[], [], false, []⟩ := Reachable.init []
    have h1 := Reachable.step ⟨[], [], false, []⟩ (.send "hi" "" "ts" 0) h0
    have he : (stepStore ⟨[], [], false, []⟩ (StoreEvent.send "hi" "" "ts" 0)).1
        = ⟨[⟨"user", "hi", 0, some ""⟩], [], true, [⟨"hi"⟩]⟩ := rfl
    exact he ▸ store_single_in_flight.2 _ h1

/-- C5: with an active editor, accepting a pending candidate moves it
to `applied` and invokes the document-mutation boundary exactly once
with exactly the proposed text; discarding moves it to `discarded`
with zero boundary invocations; `applied` and `discarded` are terminal
(the disposed panel processes no further messages). -/
theorem review_accept_applies_once (c : ReviewCandidate) (editorPresent : Bool)
    (hc : c.status = .pending) (hep : editorPresent = true) :
    reviewStep editorPresent c .accept
        = some ({ c with status := .applied }, [.applyEdit c.proposedText]) ∧
    reviewStep editorPresent c .discard
        = some ({ c with status := .discarded }, []) ∧
    (∀ (c' : ReviewCandidate) (m : ReviewMsg),
      c'.status = .applied ∨ c'.status = .discarded →
      reviewStep editorPresent c' m = none) := by
  subst hep
  refine ⟨?_, ?_, ?_⟩
  · unfold reviewStep
    rw [hc]
    simp [applyCodeChanges]
  · unfold reviewStep
    rw [hc]
  · intro c' m h'
    unfold reviewStep
    rcases h' with h' | h' <;> rw [h']

/-- C5 witness: the claim at a concrete pending candidate with an
active editor. -/
theorem review_accept_applies_once_witness :
    reviewStep true (mkReviewCandidate (some "old") "new") .accept
        = some ({ mkReviewCandidate (some "old") "new" with status := .applied },
            [.applyEdit "new"]) ∧
    reviewStep true (mkReviewCandidate (some "old") "new") .discard
        = some ({ mkReviewCandidate (some "old") "new" with status := .discarded }, []) := by
  have h := review_accept_applies_once (mkReviewCandidate (some "old") "new") true rfl rfl
  exact ⟨h.1, h.2.1⟩

/-- C6 counterexample: `"see (fence)mermaid below"` is classified as a
diagram by the code (the check is `includes`), but it is neither
wrapped in a mermaid-tagged fence nor does it contain any of the five
diagram keywords, so the claim's condition is false on it. -/
theorem isMermaidDiagram_wrapped_cx :
    isMermaidDiagram "see ```mermaid below" = true ∧
    claimDiagramCond "see ```mermaid below" = false := by
  constructor <;> decide

/-- C6 (amended): the classifier reports a diagram exactly when the
trimmed content, compared case-insensitively, contains one of the five
diagram keywords or contains the mermaid fence tag anywhere (not only
as a wrapping fence). -/
theorem isMermaidDiagram_contains_marker (s : String) :
    isMermaidDiagram s = true ↔
      ∃ k ∈ mermaidMarkers, ∃ a b : List Char, lowerTrim s = a ++ k.data ++ b := by
  constructor
  · intro h
    unfold isMermaidDiagram at h
    simp only [Bool.or_eq_true] at h
    rcases h with ((((h | h) | h) | h) | h) | h
    · exact ⟨"sequencediagram", by simp [mermaidMarkers], (occursIn_iff _ _).mp h⟩
    · exact ⟨"graph", by simp [mermaidMarkers], (occursIn_iff _ _).mp h⟩
    · exact ⟨"classdiagram", by simp [mermaidMarkers], (occursIn_iff _ _).mp h⟩
    · exact ⟨"statediagram", by simp [mermaidMarkers], (occursIn_iff _ _).mp h⟩
    · exact ⟨"erdiagram", by simp [mermaidMarkers], (occursIn_iff _ _).mp h⟩
    · exact ⟨"```mermaid", by simp [mermaidMarkers], (occursIn_iff _ _).mp h⟩
  · rintro ⟨k, hk, a, b, hab⟩
    have hocc : occursIn k.data (lowerTrim s) = true := (occursIn_iff _ _).mpr ⟨a, b, hab⟩
    unfold isMermaidDiagram
    simp only [mermaidMarkers, List.mem_cons, List.not_mem_nil, or_false] at hk
    rcases hk with hk | hk | hk | hk | hk | hk <;> subst hk <;> simp [hocc]

/-- C7 counterexample: on a fence tagged `python` the claim's
extraction (first opener with an arbitrary language tag, next closer,
payload trimmed) yields the inner code, but the code's regular
expression only matches mermaid-tagged fences and falls back to the
whole (trimmed) input. -/
theorem extractMermaid_language_tag_cx :
    claimFenceExtract "```python\nprint(1)\n```" = "print(1)" ∧
    extractMermaid "```python\nprint(1)\n```" = "```python\nprint(1)\n```" ∧
    extractMermaid "```python\nprint(1)\n```"
      ≠ claimFenceExtract "```python\nprint(1)\n```" := by
  refine ⟨by decide, by decide, by decide⟩

/-- C7 (amended): fence extraction, applied to the trimmed input,
returns the text strictly between the first mermaid-tagged opening
delimiter and the next closing delimiter, trimmed of surrounding
whitespace, provided that payload is nonempty after trimming; when the
input contains no mermaid opener, no closer after the first opener, or
the fenced payload is empty or whitespace-only (the code's
`match && match[1]` guard), it returns the entire trimmed input.  The
function is total, so it always produces some payload. -/
theorem extractMermaid_fence_extraction (s : String) :
    (occursIn "```mermaid".data (trimL s.data) = false →
      extractMermaid s = String.mk (trimL s.data)) ∧
    (∀ pre rest : List Char,
      trimL s.data = pre ++ "```mermaid".data ++ rest →
      (∀ a b : List Char, trimL s.data = a ++ "```mermaid".data ++ b → pre.length ≤ a.length) →
      occursIn "```".data rest = false →
      extractMermaid s = String.mk (trimL s.data)) ∧
    (∀ pre mid post : List Char,
      trimL s.data = pre ++ "```mermaid".data ++ (mid ++ "```".data ++ post) →
      (∀ a b : List Char, trimL s.data = a ++ "```mermaid".data ++ b → pre.length ≤ a.length) →
      (∀ a b : List Char, mid ++ "```".data ++ post = a ++ "```".data ++ b →
        mid.length ≤ a.length) →
      trimL mid ≠ [] →
      extractMermaid s = String.mk (trimL mid)) ∧
    (∀ pre mid post : List Char,
      trimL s.data = pre ++ "```mermaid".data ++ (mid ++ "```".data ++ post) →
      (∀ a b : List Char, trimL s.data = a ++ "```mermaid".data ++ b → pre.length ≤ a.length) →
      (∀ a b : List Char, mid ++ "```".data ++ post = a ++ "```".data ++ b →
        mid.length ≤ a.length) →
      trimL mid = [] →
      extractMermaid s = String.mk (trimL s.data)) := by
  refine ⟨?_, ?_, ?_, ?_⟩
  · intro h
    simp only [extractMermaid, splitFirst_eq_none_of_not_occurs h]
  · intro pre rest hdec hmin hnc
    have h1 : splitFirst "```mermaid".data (trimL s.data) = some (pre, rest) := by
      rw [hdec]
      exact splitFirst_of_first_occurrence _ pre rest
        (fun a b hab => hmin a b (hdec.trans hab))
    simp only [extractMermaid, h1, splitFirst_eq_none_of_not_occurs hnc]
  · intro pre mid post hdec hmin1 hmin2 hne
    have h1 : splitFirst "```mermaid".data (trimL s.data)
        = some (pre, mid ++ "```".data ++ post) := by
      rw [hdec]
      exact splitFirst_of_first_occurrence _ pre _
        (fun a b hab => hmin1 a b (hdec.trans hab))
    have h2 : splitFirst "```".data (mid ++ "```".data ++ post) = some (mid, post) :=
      splitFirst_of_first_occurrence _ mid post hmin2
    simp only [extractMermaid, h1, h2]
    rw [if_neg hne]
  · intro pre mid post hdec hmin1 hmin2 hemp
    have h1 : splitFirst "```mermaid".data (trimL s.data)
        = some (pre, mid ++ "```".data ++ post) := by
      rw [hdec]
      exact splitFirst_of_first_occurrence _ pre _
        (fun a b hab => hmin1 a b (hdec.trans hab))
    have h2 : splitFirst "```".data (mid ++ "```".data ++ post) = some (mid, post) :=
      splitFirst_of_first_occurrence _ mid post hmin2
    simp only [extractMermaid, h1, h2]
    rw [if_pos hemp]

/-- C7 witness: the amended claim extracts the payload of a concrete
mermaid fence, and falls back to the whole trimmed input on a concrete
fence whose payload is empty. -/
theorem extractMermaid_fence_extraction_witness :
    extractMermaid "```mermaid\nA-->B\n```" = "A-->B" ∧
    extractMermaid "```mermaid```" = "```mermaid```" := by
  constructor
  · have hdec : trimL "```mermaid\nA-->B\n```".data
        = [] ++ "```mermaid".data ++ ("\nA-->B\n".data ++ "```".data ++ []) := by decide
    have hsf : splitFirst "```".data ("\nA-->B\n".data ++ "```".data ++ [])
        = some ("\nA-->B\n".data, []) := by decide
    have h := (extractMermaid_fence_extraction "```mermaid\nA-->B\n```").2.2.1
      [] "\nA-->B\n".data [] hdec
      (fun a _ _ => Nat.zero_le a.length)
      (fun a b hab => splitFirst_minimal "```".data _ _ _ a b hsf hab)
      (by decide)
    rw [h]
    decide
  · have hdec : trimL "```mermaid```".data
        = [] ++ "```mermaid".data ++ ([] ++ "```".data ++ []) := by decide
    have hsf : splitFirst "```".data ([] ++ "```".data ++ [])
        = some ([], []) := by decide
    have h := (extractMermaid_fence_extraction "```mermaid```").2.2.2
      [] [] [] hdec
      (fun a _ _ => Nat.zero_le a.length)
      (fun a b hab => splitFirst_minimal "```".data _ _ _ a b hsf hab)
      (by decide)
    rw [h]
    decide

/-- C8: `chat` on the empty message list fails with the validation
error before any request is built, and both provider construction and
provider selection fail with a configuration error on an empty or
missing credential (an `Except.error` result carries no
`ChatRequest`/client, so no network call is made). -/
theorem provider_empty_input_errors :
    (openAIChat [] = .error (.validation "No messages provided for chat")) ∧
    (∀ apiKey : String, trimL apiKey.data = [] →
      openAIClientMake apiKey = .error (.configuration "OpenAI API key not configured")) ∧
    (∀ cfg : AIConfig, configcredential cfg = "" →
      getLLMClient cfg = .error (.configuration
        (cfg.selectedProvider ++ " API key not configured. Please set it in settings."))) := by
  refine ⟨rfl, ?_, ?_⟩
  · intro k hk
    simp [openAIClientMake, hk]
  · intro cfg hc
    simp [getLLMClient, hc]

/-- C8 witness: the claim at the empty message list, a whitespace-only
key, and a configuration with no stored credential. -/
theorem provider_empty_input_errors_witness :
    openAIChat [] = .error (.validation "No messages provided for chat") ∧
    openAIClientMake "   " = .error (.configuration "OpenAI API key not configured") ∧
    getLLMClient ⟨"OpenAI", 10, true, []⟩
      = .error (.configuration "OpenAI API key not configured. Please set it in settings.") := by
  refine ⟨provider_empty_input_errors.1,
    provider_empty_input_errors.2.1 "   " (by decide), ?_⟩
  exact provider_empty_input_errors.2.2 ⟨"OpenAI", 10, true, []⟩ (by decide)

/-- C9: when the provider call of a `send` fails, the already-appended
user message stays in the in-memory history, the persisted history is
untouched, the failure is reported as the only effect, and the store
returns to the idle state. -/
theorem sendMessage_failure_keeps_user_message (s : StoreState)
    (content ctx lang : String) (now now2 : Nat) (err : LLMError)
    (hp : s.isProcessing = false) (hpend : s.pending = []) :
    ((stepStore (stepStore s (.send content ctx lang now)).1
        (.resolve (.error err) now2)).1.messages
      = s.messages ++ [⟨"user", content, now, some ctx⟩]) ∧
    ((stepStore (stepStore s (.send content ctx lang now)).1
        (.resolve (.error err) now2)).1.persisted = s.persisted) ∧
    ((stepStore (stepStore s (.send content ctx lang now)).1
        (.resolve (.error err) now2)).1.isProcessing = false) ∧
    ((stepStore (stepStore s (.send content ctx lang now)).1
        (.resolve (.error err) now2)).2 = [.showError err]) := by
  simp [stepStore, hp, hpend]

/-- C9 witness: the claim at the empty idle store with a failing
provider call. -/
theorem sendMessage_failure_keeps_user_message_witness :
    ((stepStore (stepStore ⟨[], [], false, []⟩ (.send "hi" "ctx" "ts" 3)).1
        (.resolve (.error (.provider "boom")) 4)).1.messages
      = [] ++ [⟨"user", "hi", 3, some "ctx"⟩]) ∧
    ((stepStore (stepStore ⟨[], [], false, []⟩ (.send "hi" "ctx" "ts" 3)).1
        (.resolve (.error (.provider "boom")) 4)).1.persisted = []) ∧
    ((stepStore (stepStore ⟨[], [], false, []⟩ (.send "hi" "ctx" "ts" 3)).1
        (.resolve (.error (.provider "boom")) 4)).1.isProcessing = false) ∧
    ((stepStore (stepStore ⟨[], [], false, []⟩ (.send "hi" "ctx" "ts" 3)).1
        (.resolve (.error (.provider "boom")) 4)).2
      = [.showError (.provider "boom")]) :=
  sendMessage_failure_keeps_user_message ⟨[], [], false, []⟩ "hi" "ctx" "ts" 3 4
    (.provider "boom") rfl rfl

/-- C10: the library-based alignment-aware diff of `utils.ts` and the
naive positional diff of `src/extension.ts` disagree on an insertion
that shifts line alignment, so the two code paths are not equivalent
as functions from the two texts to diff-line sequences. -/
theorem diff_strategies_not_equivalent :
    ∃ originalText proposedText : String,
      utilsDiffLines originalText proposedText
        ≠ generateDiffLines originalText proposedText :=
  ⟨"a\nb", "x\na\nb", by decide⟩

end AIAgent
